import Mathlib

/-!
# Verification of the east_asian_monsoon_toolkit core primitives

Shallow embedding of the numerical core of the repository:

* the threshold edge/onset detector shared by `kitoh_uchiyama_2006.py`
  (lines 45-62) and `wang_linho_2002.py` (lines 42-59);
* the harmonic seasonal smoother shared by `kitoh_uchiyama_2006.py`
  (lines 23-41), `wang_linho_2002.py` (lines 24-38) and
  `li_zhang_2009.py` (`smooth_data`, lines 40-56);
* the cell-area/cosine weighting decision of `wang_fan_1999.py`
  (lines 58-71), `yim_etal_2014_precip.py` (lines 55-68),
  `yim_etal_2014_vorticity.py` (lines 70-87) and
  `wang_etal_2004.py` (lines 51-63);
* the longitude box selection of `yim_etal_2014_precip.py` (lines 47-52)
  and `yim_etal_2014_vorticity.py` (lines 61-67);
* the Li-Zhang Condition-A sustained-threshold search of
  `li_zhang_2009.py` (lines 96-103);
* the module-level name environment of `gao_etal_2001.py`, needed to
  settle the error-handling claim about `area_mean`/`gao_onset`.

Order-based code (masking, edge scans, argmax, weighting decisions) is
embedded over `ℚ`, which models IEEE floats faithfully for comparison
logic away from rounding; the Fourier smoother is embedded over `ℂ`
with the exact `numpy.fft` formulas (`X_k = Σ_n x_n e^{-2πi k n / L}`,
`x_n = (1/L) Σ_k X_k e^{2πi k n / L}`), i.e. in ideal arithmetic, which
is the reading the spec itself uses ("to floating tolerance").
-/

namespace Monsoon

/-! ## Threshold edge/onset detector

`kitoh_uchiyama_2006.py` lines 45-62 and `wang_linho_2002.py` lines
42-59 run, per (lat, lon) grid cell, along axis 0 of the raw array:

    npi_masked = np.ma.masked_less(npi.values, 0.618)
    onset_index = np.ma.notmasked_edges(npi_masked, axis=0)
    ... onset[...] = onset_index[0][0][i]+1  (first unmasked index + 1)
    ... withdrawal[...] = onset_index[1][0][i]+1  (last unmasked index + 1)
    peak_pentad = npi_masked.argmax(axis=0) + 1.
    peak_pentad = peak_pentad.where(peak_pentad!=1.)
    duration = withdrawal_pentad - onset_pentad

Cells with every entry masked are left at their NaN initialisation;
NaN is embedded as `none`. We embed one cell's time series as
`x : Fin L → ℚ` with scalar threshold `T`.
-/

/-- `np.ma.masked_less(arr, T)` masks entries strictly below `T`; an entry
is *unmasked* iff it is not `< T`. -/
def unmasked (T v : ℚ) : Bool := !(decide (v < T))

/-- Index of the first unmasked entry along the time axis
(`np.ma.notmasked_edges(_, axis=0)[0]`), `none` when the whole series is
masked. -/
def firstUnmasked (L : ℕ) (x : Fin L → ℚ) (T : ℚ) : Option (Fin L) :=
  (List.finRange L).find? (fun n => unmasked T (x n))

/-- Index of the last unmasked entry along the time axis
(`np.ma.notmasked_edges(_, axis=0)[1]`), `none` when the whole series is
masked. -/
def lastUnmasked (L : ℕ) (x : Fin L → ℚ) (T : ℚ) : Option (Fin L) :=
  (List.finRange L).reverse.find? (fun n => unmasked T (x n))

/-- Onset pentad: first unmasked index + 1 (1-indexed pentads), NaN
(`none`) when the threshold is never reached. -/
def onsetPentad (L : ℕ) (x : Fin L → ℚ) (T : ℚ) : Option ℕ :=
  (firstUnmasked L x T).map (fun n => n.val + 1)

/-- Withdrawal pentad: last unmasked index + 1, NaN (`none`) when the
threshold is never reached. -/
def withdrawalPentad (L : ℕ) (x : Fin L → ℚ) (T : ℚ) : Option ℕ :=
  (lastUnmasked L x T).map (fun n => n.val + 1)

/-- The value `np.ma.argmax` compares at position `n`: masked entries act
as the minimal fill value, embedded as `⊥` in `WithBot ℚ`; out-of-range
positions also give `⊥` (they never win). -/
def fillValue (L : ℕ) (x : Fin L → ℚ) (T : ℚ) (n : ℕ) : WithBot ℚ :=
  if h : n < L then
    (if x ⟨n, h⟩ < T then (⊥ : WithBot ℚ) else ((x ⟨n, h⟩ : ℚ) : WithBot ℚ))
  else ⊥

/-- `np.ma.argmax(npi_masked, axis=0)` for one cell: index of the first
occurrence of the maximum over unmasked entries; `0` when every entry is
masked (numpy's degenerate all-masked default). -/
def maskedArgmax (L : ℕ) (x : Fin L → ℚ) (T : ℚ) : ℕ :=
  (List.range L).foldl
    (fun best n => if fillValue L x T best < fillValue L x T n then n else best) 0

/-- Peak pentad: `argmax + 1`, then `.where(peak != 1)` turns an exact 1
into NaN (`none`). -/
def peakPentad (L : ℕ) (x : Fin L → ℚ) (T : ℚ) : Option ℕ :=
  if maskedArgmax L x T + 1 = 1 then none else some (maskedArgmax L x T + 1)

/-- Duration: `withdrawal - onset`, with NaN propagating through the
subtraction. -/
def durationPentads (L : ℕ) (x : Fin L → ℚ) (T : ℚ) : Option ℤ :=
  match withdrawalPentad L x T, onsetPentad L x T with
  | some w, some o => some ((w : ℤ) - (o : ℤ))
  | _, _ => none

/-! Helper lemmas about the detector. -/

theorem firstUnmasked_eq_none (L : ℕ) (x : Fin L → ℚ) (T : ℚ)
    (h : ∀ n, x n < T) : firstUnmasked L x T = none := by
  rw [firstUnmasked, List.find?_eq_none]
  intro n _
  simp [unmasked, h n]

theorem lastUnmasked_eq_none (L : ℕ) (x : Fin L → ℚ) (T : ℚ)
    (h : ∀ n, x n < T) : lastUnmasked L x T = none := by
  rw [lastUnmasked, List.find?_eq_none]
  intro n _
  simp [unmasked, h n]

theorem firstUnmasked_all (L : ℕ) (x : Fin L → ℚ) (T : ℚ) (hL : 0 < L)
    (h : ∀ n, ¬ x n < T) : firstUnmasked L x T = some ⟨0, hL⟩ := by
  obtain ⟨m, rfl⟩ : ∃ m, L = m + 1 := ⟨L - 1, by omega⟩
  rw [firstUnmasked, List.finRange_succ]
  exact List.find?_cons_of_pos _ (by simp [unmasked, h 0])

theorem lastUnmasked_all (L : ℕ) (x : Fin L → ℚ) (T : ℚ) (hL : 0 < L)
    (h : ∀ n, ¬ x n < T) : lastUnmasked L x T = some ⟨L - 1, by omega⟩ := by
  obtain ⟨m, rfl⟩ : ∃ m, L = m + 1 := ⟨L - 1, by omega⟩
  rw [lastUnmasked, List.finRange_reverse, List.finRange_succ, List.map_cons]
  rw [List.find?_cons_of_pos _ (by simp [unmasked, h _])]
  simp [Fin.rev_zero, Fin.last]

/-! ## Claim C5: NaN / boundary behaviour of the edge detector -/

/-- C5 counterexample. The claim states that a per-cell series that never
*exceeds* the threshold `T` yields onset = withdrawal = duration = NaN.
The code masks by `np.ma.masked_less`, i.e. strictly-below-`T` entries
only, so the constant series `0` against the threshold `T = 0` — which
never exceeds `0` — is unmasked everywhere and yields onset = 1 and
withdrawal = 1, not NaN. -/
theorem C5_counterexample_const_at_threshold :
    onsetPentad 1 (fun _ => 0) 0 = some 1 ∧
      withdrawalPentad 1 (fun _ => 0) 0 = some 1 ∧
      durationPentads 1 (fun _ => 0) 0 = some 0 ∧
      ¬ ((0 : ℚ) > 0) := by
  decide

/-- C5 (amended): the edge detector returns onset = withdrawal =
duration = NaN exactly for cells whose series is everywhere *strictly
below* `T` (the masked-less criterion); a series strictly above `T` at
every step yields onset = 1 and withdrawal = L (1-indexed), with
duration L - 1. -/
theorem C5_detector_nan_and_full_season (L : ℕ) (x : Fin L → ℚ) (T : ℚ)
    (hL : 0 < L) :
    ((∀ n, x n < T) →
      onsetPentad L x T = none ∧ withdrawalPentad L x T = none ∧
        durationPentads L x T = none) ∧
    ((∀ n, T < x n) →
      onsetPentad L x T = some 1 ∧ withdrawalPentad L x T = some L ∧
        durationPentads L x T = some ((L : ℤ) - 1)) := by
  constructor
  · intro h
    have h1 := firstUnmasked_eq_none L x T h
    have h2 := lastUnmasked_eq_none L x T h
    simp [onsetPentad, withdrawalPentad, durationPentads, h1, h2]
  · intro h
    have h' : ∀ n, ¬ x n < T := fun n => not_lt.mpr (le_of_lt (h n))
    have h1 := firstUnmasked_all L x T hL h'
    have h2 := lastUnmasked_all L x T hL h'
    have hO : onsetPentad L x T = some 1 := by simp [onsetPentad, h1]
    have hW : withdrawalPentad L x T = some L := by
      simp only [withdrawalPentad, h2, Option.map_some']
      congr 1
      omega
    refine ⟨hO, hW, ?_⟩
    simp [durationPentads, hO, hW]

/-- C5 witness: the amended theorem applied to the two-step series
`[3, 4]` with threshold `1`, which is strictly above threshold
throughout. -/
theorem C5_witness :
    onsetPentad 2 ![(3 : ℚ), 4] 1 = some 1 ∧
      withdrawalPentad 2 ![(3 : ℚ), 4] 1 = some 2 ∧
      durationPentads 2 ![(3 : ℚ), 4] 1 = some ((2 : ℤ) - 1) :=
  (C5_detector_nan_and_full_season 2 ![(3 : ℚ), 4] 1 (by decide)).2 (by decide)

/-! ## Claim C6: the peak index -/

/-- C6: the peak result is the zero-based masked argmax plus 1, except
that a computed peak exactly equal to 1 is replaced by NaN; consequently
every returned peak value is strictly greater than 1. -/
theorem C6_peak_is_guarded_argmax (L : ℕ) (x : Fin L → ℚ) (T : ℚ) (v : ℕ) :
    (peakPentad L x T = some v ↔
      (v = maskedArgmax L x T + 1 ∧ v ≠ 1)) ∧
    (peakPentad L x T = some v → 1 < v) := by
  unfold peakPentad
  by_cases h : maskedArgmax L x T + 1 = 1
  · rw [if_pos h]
    constructor
    · constructor
      · intro hv
        cases hv
      · rintro ⟨rfl, hv1⟩
        exact absurd h hv1
    · intro hv
      cases hv
  · rw [if_neg h]
    refine ⟨⟨?_, ?_⟩, ?_⟩
    · intro hv
      have hv' : maskedArgmax L x T + 1 = v := by injection hv
      exact ⟨hv'.symm, by omega⟩
    · rintro ⟨rfl, _⟩
      rfl
    · intro hv
      have hv' : maskedArgmax L x T + 1 = v := by injection hv
      omega

/-- C6 witness: the series `[0, 5]` with threshold `1` has its masked
argmax at zero-based index 1, so the peak is pentad 2 (> 1). -/
theorem C6_witness :
    (peakPentad 2 ![(0 : ℚ), 5] 1 = some 2 ↔
      (2 = maskedArgmax 2 ![(0 : ℚ), 5] 1 + 1 ∧ 2 ≠ 1)) ∧
    (peakPentad 2 ![(0 : ℚ), 5] 1 = some 2 → 1 < 2) :=
  C6_peak_is_guarded_argmax 2 ![(0 : ℚ), 5] 1 2

/-! ## Claim C9: the detection stage scans axis 0 of the raw array

In both `kitoh_uchiyama_2006.py` and `wang_linho_2002.py` the smoothing
honours the `pentaddim` argument (`get_axis_num` / branch on `axisno`),
but the detection stage hardcodes the scanned axis:
`np.ma.notmasked_edges(npi_masked, axis=0)` (kitoh line 47, wang_linho
line 44) and `npi_masked.argmax(axis=0)` (kitoh line 59, wang_linho
line 56), with the result grids indexed by the remaining two axes.
We embed the detection stage on a 3-D array `y` whose axes are in raw
memory order: the scan always runs over the first index. -/

/-- Onset grid of the detection stage: per remaining-axes cell `(j, k)`,
the 1-indexed first unmasked entry along axis 0. -/
def onsetGrid (P A B : ℕ) (y : Fin P → Fin A → Fin B → ℚ) (T : ℚ) :
    Fin A → Fin B → Option ℕ :=
  fun j k => onsetPentad P (fun i => y i j k) T

/-- Withdrawal grid of the detection stage (last unmasked entry along
axis 0, 1-indexed). -/
def withdrawalGrid (P A B : ℕ) (y : Fin P → Fin A → Fin B → ℚ) (T : ℚ) :
    Fin A → Fin B → Option ℕ :=
  fun j k => withdrawalPentad P (fun i => y i j k) T

/-- Peak grid of the detection stage (`argmax(axis=0) + 1` with the
equals-1 guard). -/
def peakGrid (P A B : ℕ) (y : Fin P → Fin A → Fin B → ℚ) (T : ℚ) :
    Fin A → Fin B → Option ℕ :=
  fun j k => peakPentad P (fun i => y i j k) T

/-- A concrete 2×2×1 cube whose axis-0 scan and axis-1 scan disagree:
its only above-threshold entry sits at axis-0 index 0, axis-1 index 1. -/
def axisProbeCube : Fin 2 → Fin 2 → Fin 1 → ℚ :=
  fun i j _ => if i.val = 0 ∧ j.val = 1 then 10 else 0

/-- C9: the detection stage scans along axis 0 of the raw array. When the
pentad dimension is axis 0, the per-cell onset/withdrawal contract holds
(first conjunct, shown here for series above threshold throughout); and
the axis-0 scan genuinely differs from treating axis 1 as the pentad
axis (second conjunct), so the contract holds only under the
precondition that the pentad dimension is the first axis. -/
theorem C9_detection_scans_axis_zero :
    (∀ (P A B : ℕ) (y : Fin P → Fin A → Fin B → ℚ) (T : ℚ)
      (j : Fin A) (k : Fin B), 0 < P → (∀ i, T < y i j k) →
        onsetGrid P A B y T j k = some 1 ∧
          withdrawalGrid P A B y T j k = some P) ∧
    onsetGrid 2 2 1 axisProbeCube 5 ≠
      fun j k => onsetPentad 2 (fun i => axisProbeCube j i k) 5 := by
  constructor
  · intro P A B y T j k hP h
    have h' : ∀ i, ¬ y i j k < T := fun i => not_lt.mpr (le_of_lt (h i))
    have h1 := firstUnmasked_all P (fun i => y i j k) T hP h'
    have h2 := lastUnmasked_all P (fun i => y i j k) T hP h'
    constructor
    · simp [onsetGrid, onsetPentad, h1]
    · simp only [withdrawalGrid, withdrawalPentad, h2, Option.map_some']
      congr 1
      omega
  · decide

/-- C9 witness: the axis-0 contract instantiated on a concrete 1×1×1
cube above threshold. -/
theorem C9_witness :
    onsetGrid 1 1 1 (fun _ _ _ => (9 : ℚ)) 5 0 0 = some 1 ∧
      withdrawalGrid 1 1 1 (fun _ _ _ => (9 : ℚ)) 5 0 0 = some 1 :=
  C9_detection_scans_axis_zero.1 1 1 1 (fun _ _ _ => (9 : ℚ)) 5 0 0
    (by decide) (by decide)

/-! ## Claim C4: cell-area grid acceptance and cosine fallback

`wang_fan_1999.py` lines 58-71 (identically `yim_etal_2014_precip.py`
55-68, `yim_etal_2014_vorticity.py` 70-87, `wang_etal_2004.py` 51-63):

    if areacell is not None:
        if (len(areacell.lat) == len(u.lat)) and (len(areacell.lon) == len(u.lon)):
            latsame = (np.round(areacell.lat.values - u.lat.values,2) ==0.).all()
            lonsame = (np.round(areacell.lon.values - u.lon.values,2) ==0.).all()
        else:
            latsame = False;  lonsame = False
        if latsame and lonsame:
            ... area weighting ...
        else:
            print('Warning, ...')
            areacell = None
    if areacell is None:
        ... cosine weighting ...

`np.round(d, 2) == 0` accepts a coordinate difference iff it rounds to
zero at two decimal places. We embed rounding over `ℚ` with Mathlib's
`round` (half-up where numpy is half-even; the two agree off exact
half-hundredth ties, which the claims below avoid). -/

/-- `np.round(q, 2)`: round to two decimal places. -/
def round2 (q : ℚ) : ℚ := ((round (100 * q) : ℤ) : ℚ) / 100

/-- `(np.round(a - f, 2) == 0.).all()`: every paired coordinate
difference rounds to zero at two decimals. -/
def coordsClose (a f : List ℚ) : Bool :=
  (List.zipWith (fun x y => round2 (x - y)) a f).all (fun d => d == 0)

/-- Outcome of the weighting decision: whether the supplied cell-area
grid is used, and whether the cosine-fallback diagnostic notice is
printed. -/
structure WeightChoice where
  usedArea : Bool
  notice : Bool

/-- The weighting decision, from the branch structure quoted above.
`areacellGiven` is `areacell is not None`. -/
def chooseWeights (areacellGiven : Bool) (aLat aLon fLat fLon : List ℚ) :
    WeightChoice :=
  if areacellGiven then
    if aLat.length == fLat.length && aLon.length == fLon.length then
      if coordsClose aLat fLat && coordsClose aLon fLon then
        ⟨true, false⟩
      else ⟨false, true⟩
    else ⟨false, true⟩
  else ⟨false, false⟩

theorem coordsClose_iff (a f : List ℚ) :
    coordsClose a f = true ↔
      ∀ d ∈ List.zipWith (fun x y => x - y) a f, round2 d = 0 := by
  induction a generalizing f with
  | nil => cases f <;> simp [coordsClose]
  | cons x a ih =>
    cases f with
    | nil => simp [coordsClose]
    | cons y f =>
      simp only [coordsClose, List.zipWith_cons_cons, List.all_cons,
        Bool.and_eq_true, beq_iff_eq, List.mem_cons] at *
      constructor
      · rintro ⟨h1, h2⟩ d hd
        rcases hd with rfl | hd
        · exact h1
        · exact (ih f).mp h2 d hd
      · intro h
        exact ⟨h _ (Or.inl rfl), (ih f).mpr fun d hd => h d (Or.inr hd)⟩

theorem chooseWeights_usedArea_iff (aLat aLon fLat fLon : List ℚ) :
    (chooseWeights true aLat aLon fLat fLon).usedArea = true ↔
      (aLat.length = fLat.length ∧ aLon.length = fLon.length ∧
        (∀ d ∈ List.zipWith (fun x y => x - y) aLat fLat, round2 d = 0) ∧
        (∀ d ∈ List.zipWith (fun x y => x - y) aLon fLon, round2 d = 0)) := by
  unfold chooseWeights
  rw [if_pos rfl]
  by_cases hlen : aLat.length == fLat.length && aLon.length == fLon.length
  · rw [if_pos hlen]
    simp only [Bool.and_eq_true, beq_iff_eq] at hlen
    by_cases hclose : coordsClose aLat fLat && coordsClose aLon fLon
    · rw [if_pos hclose]
      simp only [Bool.and_eq_true] at hclose
      simp only [true_iff]
      exact ⟨hlen.1, hlen.2, (coordsClose_iff _ _).mp hclose.1,
        (coordsClose_iff _ _).mp hclose.2⟩
    · rw [if_neg hclose]
      simp only [Bool.false_eq_true, false_iff]
      rintro ⟨-, -, h3, h4⟩
      exact hclose (by
        rw [Bool.and_eq_true]
        exact ⟨(coordsClose_iff _ _).mpr h3, (coordsClose_iff _ _).mpr h4⟩)
  · rw [if_neg hlen]
    simp only [Bool.and_eq_true, beq_iff_eq] at hlen
    simp only [Bool.false_eq_true, false_iff]
    rintro ⟨h1, h2, -, -⟩
    exact absurd ⟨h1, h2⟩ hlen

theorem chooseWeights_notice_eq (aLat aLon fLat fLon : List ℚ) :
    (chooseWeights true aLat aLon fLat fLon).notice =
      !(chooseWeights true aLat aLon fLat fLon).usedArea := by
  unfold chooseWeights
  rw [if_pos rfl]
  by_cases hlen : aLat.length == fLat.length && aLon.length == fLon.length
  · rw [if_pos hlen]
    by_cases hclose : coordsClose aLat fLat && coordsClose aLon fLon
    · rw [if_pos hclose]
      rfl
    · rw [if_neg hclose]
      rfl
  · rw [if_neg hlen]
    rfl

theorem round2_eq_zero_abs_le (d : ℚ) (hd : round2 d = 0) : |d| ≤ 1/100 := by
  have h100 : round (100 * d) = 0 := by
    rw [round2, div_eq_zero_iff] at hd
    rcases hd with h | h
    · exact_mod_cast h
    · norm_num at h
  rw [round_eq_zero_iff, Set.mem_Ico] at h100
  rw [abs_le]
  constructor <;> nlinarith [h100.1, h100.2]

/-- C4 counterexample. The claim says a supplied cell-area grid is used
whenever axis lengths match and every coordinate agrees within `0.01`.
A single-point grid whose latitude differs from the field's by
`0.008 = 1/125` (lengths equal, difference within `0.01`) is
nevertheless rejected — `np.round(0.008, 2) = 0.01 ≠ 0` — and the
cosine fallback fires with a notice. -/
theorem C4_counterexample_tolerance :
    (chooseWeights true [1/125] [0] [0] [0]).usedArea = false ∧
      (chooseWeights true [1/125] [0] [0] [0]).notice = true ∧
      |(1/125 : ℚ) - 0| ≤ 1/100 ∧
      [(1/125 : ℚ)].length = [(0 : ℚ)].length := by
  have hr : round2 ((1 : ℚ)/125 - 0) = 1/100 := by
    have h : round ((100 : ℚ) * (1/125 - 0)) = 1 := by norm_num [round_eq]
    rw [round2, h]
    norm_num
  have hu : ¬ (chooseWeights true [1/125] [0] [0] [0]).usedArea = true := by
    rw [chooseWeights_usedArea_iff]
    rintro ⟨-, -, h3, -⟩
    have := h3 ((1 : ℚ)/125 - 0) (by simp)
    rw [hr] at this
    norm_num at this
  have hu' : (chooseWeights true [1/125] [0] [0] [0]).usedArea = false :=
    Bool.eq_false_iff.mpr (by simpa using hu)
  refine ⟨hu', ?_, by rw [sub_zero, abs_of_nonneg (by norm_num)]; norm_num, rfl⟩
  rw [chooseWeights_notice_eq, hu']
  rfl

/-- C4 (amended): a supplied cell-area grid is used iff its lat and lon
axis lengths equal the field's and every coordinate difference rounds to
zero at two decimal places (so in particular each |difference| is at
most `0.005`, a stricter bar than the claimed `0.01`); any mismatch
triggers the cosine fallback together with the diagnostic notice, never
an error. -/
theorem C4_area_grid_acceptance (aLat aLon fLat fLon : List ℚ) :
    ((chooseWeights true aLat aLon fLat fLon).usedArea = true ↔
      (aLat.length = fLat.length ∧ aLon.length = fLon.length ∧
        (∀ d ∈ List.zipWith (fun x y => x - y) aLat fLat, round2 d = 0) ∧
        (∀ d ∈ List.zipWith (fun x y => x - y) aLon fLon, round2 d = 0))) ∧
    ((chooseWeights true aLat aLon fLat fLon).notice =
      !(chooseWeights true aLat aLon fLat fLon).usedArea) ∧
    ((chooseWeights true aLat aLon fLat fLon).usedArea = true →
      ∀ d ∈ List.zipWith (fun x y => x - y) aLat fLat, |d| ≤ 1/100) := by
  refine ⟨chooseWeights_usedArea_iff aLat aLon fLat fLon,
    chooseWeights_notice_eq aLat aLon fLat fLon, ?_⟩
  intro hu d hd
  exact round2_eq_zero_abs_le d
    (((chooseWeights_usedArea_iff aLat aLon fLat fLon).mp hu).2.2.1 d hd)

/-- C4 witness: a grid with exactly matching single-point coordinates is
accepted, and its notice flag is off. -/
theorem C4_witness :
    (chooseWeights true [10] [20] [10] [20]).usedArea = true ∧
      ∀ d ∈ List.zipWith (fun x y => x - y) [(10 : ℚ)] [(10 : ℚ)],
        |d| ≤ 1/100 := by
  have h10 : round2 ((10 : ℚ) - 10) = 0 := by norm_num [round2, round_eq]
  have h20 : round2 ((20 : ℚ) - 20) = 0 := by norm_num [round2, round_eq]
  have hu : (chooseWeights true [10] [20] [10] [20]).usedArea = true :=
    (C4_area_grid_acceptance [10] [20] [10] [20]).1.mpr
      ⟨rfl, rfl, by simpa using h10, by simpa using h20⟩
  exact ⟨hu, (C4_area_grid_acceptance [10] [20] [10] [20]).2.2 hu⟩

/-! ## Claim C7: longitude box selection and date-line wrap

`yim_etal_2014_precip.py` lines 48-51:

    if lonb > lona:
        lons = [... if p.lon[i] >= lona and p.lon[i] <= lonb]
    else:
        lons = [... if p.lon[i] >= lona or p.lon[i] <= lonb]

`yim_etal_2014_vorticity.py` lines 62 and 66 have no wrap branch:

    lons1 = [... if u.lon[i] >= lon1a and u.lon[i] <= lon1b]
-/

/-- Longitude selection of `yim_precip` (wrap-aware). -/
def selectLons (lona lonb : ℚ) (lons : List ℚ) : List ℚ :=
  if lonb > lona then
    lons.filter (fun l => decide (lona ≤ l) && decide (l ≤ lonb))
  else
    lons.filter (fun l => decide (lona ≤ l) || decide (l ≤ lonb))

/-- Longitude selection of `yim_vort` (AND-only, no wrap branch). -/
def selectLonsVort (lona lonb : ℚ) (lons : List ℚ) : List ℚ :=
  lons.filter (fun l => decide (lona ≤ l) && decide (l ≤ lonb))

/-- C7 counterexample. Two failures of the claim as stated. (i) For a
box with `max = min` (so max ≥ min), `yim_precip` takes the OR branch:
with `min = max = 10` the grid point `5` is selected although it does
not satisfy `lon ≥ 10 ∧ lon ≤ 10`. (ii) For the claim's own wrap
example `min = 350, max = 10`, `yim_vort` — one of the two cited
reducers — selects nothing at all: the point `355` of the claimed union
is dropped because `yim_vort` has no OR branch. -/
theorem C7_counterexample_boundary_and_vort :
    ((5 : ℚ) ∈ selectLons 10 10 [5]) ∧
      ¬ ((10 : ℚ) ≤ 5 ∧ (5 : ℚ) ≤ 10) ∧
      selectLonsVort 350 10 [355] = [] ∧
      ((350 : ℚ) ≤ 355 ∨ (355 : ℚ) ≤ 10) := by
  decide

/-- C7 (amended): in `yim_precip`, a box with longitude `max > min`
(strictly) selects exactly the points with `min ≤ lon ≤ max`, and a box
with `max ≤ min` — wrap boxes *and* the degenerate `max = min` case —
selects exactly the union `lon ≥ min ∨ lon ≤ max`; `yim_vort` applies
the AND form to every box (it has no wrap branch). -/
theorem C7_lon_selection (lona lonb : ℚ) (lons : List ℚ) (l : ℚ) :
    (lona < lonb →
      (l ∈ selectLons lona lonb lons ↔ l ∈ lons ∧ lona ≤ l ∧ l ≤ lonb)) ∧
    (lonb ≤ lona →
      (l ∈ selectLons lona lonb lons ↔ l ∈ lons ∧ (lona ≤ l ∨ l ≤ lonb))) ∧
    (l ∈ selectLonsVort lona lonb lons ↔ l ∈ lons ∧ lona ≤ l ∧ l ≤ lonb) := by
  refine ⟨?_, ?_, ?_⟩
  · intro h
    rw [selectLons, if_pos h]
    simp [List.mem_filter, and_assoc]
  · intro h
    rw [selectLons, if_neg (not_lt.mpr h)]
    simp [List.mem_filter]
  · rw [selectLonsVort]
    simp [List.mem_filter, and_assoc]

/-- C7 witness: the amended characterisation applied to the wrap box
`min = 350, max = 10` of `yim_precip` at grid point `355`. -/
theorem C7_witness :
    (355 : ℚ) ∈ selectLons 350 10 [355] ↔
      (355 : ℚ) ∈ [(355 : ℚ)] ∧ ((350 : ℚ) ≤ 355 ∨ (355 : ℚ) ≤ 10) :=
  (C7_lon_selection 350 10 [355] 355).2.1 (by norm_num)

/-! ## Claims C8/C10: Li-Zhang Condition-A sustained-threshold onset

`li_zhang_2009.py` lines 96-103, per grid cell:

    cond_a_onset = beta_onset > beta_julaug/2.
    a = np.zeros(cond_a_onset.shape)
    for i in range(len(cond_a_onset.time)-p):
        a[:,:,i] = xr.where(cond_a_onset.isel(time=range(i,i+p)).sum('time') == p, i, np.nan).values
    a = xr.DataArray(a, ...)
    a = a.isel(time=range(1,len(a.time)-p))
    a = a.min('time')

With `Tn` time steps: positions `i < Tn - p` hold `i` when the window
`[i, i+p)` is entirely above threshold and NaN otherwise (later
positions keep their zero initialisation but are discarded by the
`isel`), the `isel` restricts to candidate indices `1 ≤ i < Tn - p`,
and the NaN-skipping `min` returns the least surviving candidate (NaN,
i.e. `⊤`, when there is none). `beta` is one cell's angular series and
`thr` that cell's `beta_julaug / 2`. -/

/-- `cond_a_onset` at one time step: `beta(t) > thr`. -/
def lzCond (beta : ℕ → ℚ) (thr : ℚ) (t : ℕ) : Bool := decide (thr < beta t)

/-- Window test at candidate `i`:
`cond_a_onset.isel(time=range(i,i+p)).sum('time') == p`. -/
def lzSustained (p : ℕ) (beta : ℕ → ℚ) (thr : ℚ) (i : ℕ) : Bool :=
  decide ((∑ d ∈ Finset.range p, if lzCond beta thr (i + d) then (1 : ℕ) else 0) = p)

/-- The Condition-A onset: NaN-skipping minimum of the sustained
candidates restricted to `isel(time=range(1, Tn-p))`. -/
def lzCondAOnset (Tn p : ℕ) (beta : ℕ → ℚ) (thr : ℚ) : WithTop ℕ :=
  ((Finset.Ico 1 (Tn - p)).filter (fun i => lzSustained p beta thr i = true)).min

theorem lzCondAOnset_spec (Tn p : ℕ) (beta : ℕ → ℚ) (thr : ℚ) (m : ℕ)
    (h : lzCondAOnset Tn p beta thr = (m : WithTop ℕ)) :
    1 ≤ m ∧ m < Tn - p ∧ lzSustained p beta thr m = true := by
  have hm := Finset.mem_of_min h
  rw [Finset.mem_filter, Finset.mem_Ico] at hm
  exact ⟨hm.1.1, hm.1.2, hm.2⟩

theorem lzCondAOnset_le (Tn p : ℕ) (beta : ℕ → ℚ) (thr : ℚ) (i : ℕ)
    (h1 : 1 ≤ i) (h2 : i < Tn - p) (hs : lzSustained p beta thr i = true) :
    lzCondAOnset Tn p beta thr ≤ (i : WithTop ℕ) :=
  Finset.min_le (by rw [Finset.mem_filter, Finset.mem_Ico]; exact ⟨⟨h1, h2⟩, hs⟩)

/-- C8 counterexample. A beta series above threshold from the very first
step sustains the threshold from index 0 (`lzSustained ... 0 = true`),
so the claimed "earliest time index" is 0; the code returns 1 because
index 0 is dropped by `isel(time=range(1, ...))`. Here `Tn = 20`,
`p = 15`, beta ≡ 1, thr = 0. -/
theorem C8_counterexample_sustained_from_zero :
    lzSustained 15 (fun _ => 1) 0 0 = true ∧
      lzCondAOnset 20 15 (fun _ => 1) 0 = ((1 : ℕ) : WithTop ℕ) := by
  decide

/-- C8 (amended): the Condition-A onset is the least *candidate* index
`i ∈ [1, Tn-p)` whose following `p` steps all exceed the threshold
(candidates exclude index 0 and indices from `Tn-p` on); and in the
concrete scenario — beta 0 at steps 0..19 and above threshold from step
20 on, `p = 15`, `Tn = 40` — the Condition-A onset is step 20. -/
theorem C8_condA_onset_earliest_candidate :
    (∀ (Tn p : ℕ) (beta : ℕ → ℚ) (thr : ℚ) (m : ℕ),
      lzCondAOnset Tn p beta thr = (m : WithTop ℕ) →
        (1 ≤ m ∧ m < Tn - p ∧ lzSustained p beta thr m = true ∧
          ∀ i, 1 ≤ i → i < Tn - p → lzSustained p beta thr i = true → m ≤ i)) ∧
    lzCondAOnset 40 15 (fun t => if t < 20 then 0 else 1) 0 =
      ((20 : ℕ) : WithTop ℕ) := by
  constructor
  · intro Tn p beta thr m h
    obtain ⟨h1, h2, h3⟩ := lzCondAOnset_spec Tn p beta thr m h
    refine ⟨h1, h2, h3, fun i hi1 hi2 hs => ?_⟩
    have := lzCondAOnset_le Tn p beta thr i hi1 hi2 hs
    rw [h] at this
    exact_mod_cast this
  · decide

/-- C8 witness: the earliest-candidate characterisation applied to the
scenario series, whose Condition-A onset is step 20. -/
theorem C8_witness :
    1 ≤ 20 ∧ 20 < 40 - 15 ∧
      lzSustained 15 (fun t => if t < 20 then 0 else 1) 0 20 = true ∧
      ∀ i, 1 ≤ i → i < 40 - 15 →
        lzSustained 15 (fun t => if t < 20 then 0 else 1) 0 i = true → 20 ≤ i :=
  C8_condA_onset_earliest_candidate.1 40 15
    (fun t => if t < 20 then 0 else 1) 0 20 (by decide)

/-- C10: the Condition-A onset minimum ranges only over candidate
indices `1 .. Tn-p-1`; in particular it is never 0, even when a
sustained above-threshold period starts at the very first step. -/
theorem C10_condA_onset_never_zero :
    (∀ (Tn p : ℕ) (beta : ℕ → ℚ) (thr : ℚ),
      lzCondAOnset Tn p beta thr ≠ ((0 : ℕ) : WithTop ℕ)) ∧
    (∀ (Tn p : ℕ) (beta : ℕ → ℚ) (thr : ℚ) (m : ℕ),
      lzCondAOnset Tn p beta thr = (m : WithTop ℕ) → 1 ≤ m ∧ m < Tn - p) := by
  constructor
  · intro Tn p beta thr h
    have := (lzCondAOnset_spec Tn p beta thr 0 h).1
    omega
  · intro Tn p beta thr m h
    obtain ⟨h1, h2, -⟩ := lzCondAOnset_spec Tn p beta thr m h
    exact ⟨h1, h2⟩

/-- C10 witness: an all-above-threshold series with a sustained period
starting at step 0 still reports onset 1, never 0. -/
theorem C10_witness :
    lzCondAOnset 20 15 (fun _ => 1) 0 ≠ ((0 : ℕ) : WithTop ℕ) ∧
      (1 ≤ 1 ∧ 1 < 20 - 15) :=
  ⟨C10_condA_onset_never_zero.1 20 15 (fun _ => 1) 0,
    C10_condA_onset_never_zero.2 20 15 (fun _ => 1) 0 1 (by decide)⟩

/-! ## Claim C1: `gao_etal_2001.area_mean` and Python name resolution

`area_mean(var_in, areacell=None)` (`gao_etal_2001.py` lines 72-98)
opens with

    lats = [u.lat[i].values for i in range(len(u.lat)) if ...]
    lons = [u.lon[i].values for i in range(len(u.lon)) if ...]

and, on the `areacell` branch (line 80),

    areacell = areacell.rename({latdim:'lat', londim:'lon'})

The names `u`, `latdim` and `londim` are not parameters or locals of
`area_mean` (its parameters are `var_in` and `areacell`), so Python
resolves them in the module's global namespace. We transcribe the
module's global names (its imports, constants and function defs) and
the free names read by `area_mean`, and check resolution. A free name
that is neither a module global nor a referenced builtin raises
`NameError` at its first evaluation — a hard fatal error on *every*
call of `area_mean`, hence of `gao_onset`, which calls it
unconditionally (lines 125-126). (The block was copied from
`wang_etal_2004.scsm_onset`, where `u`, `latdim`, `londim` are genuine
parameters — the slip is using `u` instead of `var_in`.) -/

/-- Names bound in the global namespace of the module
`gao_etal_2001.py`: imports, module constants, and function defs. -/
def gaoModuleGlobals : List String :=
  ["np", "xr", "cp_air", "L", "rdgas", "rvgas", "tfreeze", "a",
   "sat_vap_pres", "equiv_pot_t_ams", "rename_coords", "area_mean",
   "gao_onset"]

/-- Python builtins referenced inside `area_mean`. -/
def pythonBuiltinsUsed : List String := ["len", "range", "print"]

/-- Free (non-parameter, non-local) names read by the body of
`area_mean`: `np` (lines 82-83, 94), `u` (lines 75-76), `latdim` and
`londim` (line 80), `len` and `range` (lines 75-76), `print`
(line 90). Its bound names are the parameters `var_in`, `areacell` and
the locals `lats`, `lons`, `latsame`, `lonsame`, `var_in_wt`,
`var_in_mean`, `coslat`, `i`. -/
def areaMeanFreeNames : List String :=
  ["np", "u", "latdim", "londim", "len", "range", "print"]

/-- The free names of `area_mean` that resolve nowhere: evaluating any
of them raises `NameError`. -/
def areaMeanUnresolved : List String :=
  areaMeanFreeNames.filter
    (fun n => !(gaoModuleGlobals.contains n || pythonBuiltinsUsed.contains n))

/-- C1: `area_mean` reads the unresolved names `u`, `latdim`, `londim`;
the first of them is evaluated on line 75 before any weighting or
fallback logic, so every call of `area_mean` — and therefore every call
of `gao_onset` — raises `NameError` instead of degrading to a notice or
a NaN result. -/
theorem C1_area_mean_unresolved_names :
    areaMeanUnresolved = ["u", "latdim", "londim"] ∧
      "u" ∉ gaoModuleGlobals := by
  decide

/-! ## Harmonic seasonal smoother

`kitoh_uchiyama_2006.py` lines 23-41 (identically `wang_linho_2002.py`
lines 24-38 and `li_zhang_2009.smooth_data`):

    p_mean = p_pentad.mean(pentaddim)
    p_pentad = p_pentad - p_mean
    p_fft = np.fft.fft(p_pentad.values, axis=axisno)
    p_fft[12:-12,...] = 0
    p_smooth = np.fft.ifft(p_fft, axis=axisno)
    p_smooth = ... p_smooth.real ...
    p_smooth = p_smooth + p_mean

acting per grid cell along the time axis. `numpy.fft` uses
`X_k = Σ_n x_n e^{-2πi k n / L}` and
`x_n = (1/L) Σ_k X_k e^{2πi k n / L}`; with `ω_L := e^{2πi / L}` these
are `X_k = Σ_n x_n (ω_L^(k n))⁻¹` and
`x_n = (Σ_k X_k ω_L^(k n)) / L`, since `e^{2πi m / L} = ω_L^m`.
The slice `p_fft[12:-12] = 0` zeroes exactly the indices
`12 ≤ i < L - 12` (empty when `L ≤ 24`), retaining
`i < 12 ∨ L - 12 ≤ i` — which is how the retained set is written below,
with `ℕ`-truncated subtraction agreeing with numpy's slice clipping for
small `L`. The embedding is per cell over `ℂ`, ideal arithmetic. -/

/-- `ω_L = e^{2πi/L}`, the basic `L`-th root of unity of `numpy.fft`. -/
noncomputable def expRoot (L : ℕ) : ℂ :=
  Complex.exp (2 * Real.pi * Complex.I / L)

/-- `np.fft.fft` along one cell's series. -/
noncomputable def dftc (L : ℕ) (x : Fin L → ℂ) (k : Fin L) : ℂ :=
  ∑ n : Fin L, x n * (expRoot L ^ (k.val * n.val))⁻¹

/-- `np.fft.ifft` along one cell's series. -/
noncomputable def idftc (L : ℕ) (y : Fin L → ℂ) (n : Fin L) : ℂ :=
  (∑ k : Fin L, y k * expRoot L ^ (k.val * n.val)) / L

/-- `p_fft[12:-12] = 0`: coefficients at indices `12 ≤ i < L - 12` are
zeroed; indices `i < 12` and `L - 12 ≤ i` survive. -/
noncomputable def mask12 (L : ℕ) (F : Fin L → ℂ) : Fin L → ℂ :=
  fun k => if k.val < 12 ∨ L - 12 ≤ k.val then F k else 0

/-- `p_pentad.mean(pentaddim)` for one cell. -/
noncomputable def seriesMean (L : ℕ) (x : Fin L → ℝ) : ℝ := (∑ n, x n) / L

/-- The de-meaned series fed to the transform, as a complex series. -/
noncomputable def demeaned (L : ℕ) (x : Fin L → ℝ) : Fin L → ℂ :=
  fun n => ((x n - seriesMean L x : ℝ) : ℂ)

/-- The retained spectrum: transform of the de-meaned series with the
`12:-12` slice zeroed. -/
noncomputable def smoothCoeffs (L : ℕ) (x : Fin L → ℝ) : Fin L → ℂ :=
  mask12 L (dftc L (demeaned L x))

/-- The smoothed series: inverse transform of the retained spectrum,
real part, mean added back. -/
noncomputable def smoothSeries (L : ℕ) (x : Fin L → ℝ) : Fin L → ℝ :=
  fun n => (idftc L (smoothCoeffs L x) n).re + seriesMean L x

theorem expRoot_isPrimitiveRoot (L : ℕ) (hL : L ≠ 0) :
    IsPrimitiveRoot (expRoot L) L :=
  Complex.isPrimitiveRoot_exp L hL

theorem expRoot_pow_self (L : ℕ) (hL : L ≠ 0) : expRoot L ^ L = 1 :=
  (expRoot_isPrimitiveRoot L hL).pow_eq_one

/-- Geometric sum of a power of `ω_L` over one period. -/
theorem rootSum (L : ℕ) (hL : 0 < L) (j : ℕ) :
    ∑ n : Fin L, (expRoot L ^ j) ^ n.val = if L ∣ j then (L : ℂ) else 0 := by
  rw [Fin.sum_univ_eq_sum_range (fun i => (expRoot L ^ j) ^ i) L]
  by_cases h : L ∣ j
  · rw [if_pos h,
      ((expRoot_isPrimitiveRoot L hL.ne').pow_eq_one_iff_dvd j).mpr h]
    simp
  · rw [if_neg h]
    have h1 : expRoot L ^ j ≠ 1 := fun hh =>
      h (((expRoot_isPrimitiveRoot L hL.ne').pow_eq_one_iff_dvd j).mp hh)
    rw [geom_sum_eq h1]
    have h2 : (expRoot L ^ j) ^ L = 1 := by
      rw [← pow_mul, mul_comm, pow_mul, expRoot_pow_self L hL.ne', one_pow]
    rw [h2, sub_self, zero_div]

/-- Inverting a power of `ω_L` reflects the exponent modulo the period:
`(ω_L^(k n))⁻¹ = ω_L^((L-k) n)` for `k ≤ L`. -/
theorem expRoot_pow_inv (L : ℕ) (hL : L ≠ 0) (k n : ℕ) (hk : k ≤ L) :
    (expRoot L ^ (k * n))⁻¹ = expRoot L ^ ((L - k) * n) := by
  apply inv_eq_of_mul_eq_one_right
  rw [← pow_add]
  have h : k * n + (L - k) * n = L * n := by
    rw [← add_mul]
    congr 1
    omega
  rw [h, pow_mul, expRoot_pow_self L hL, one_pow]

/-- Which cross terms survive orthogonality: for `j, k < L`,
`L ∣ j + (L - k)` iff `j = k`. -/
theorem dvd_cross (L j k : ℕ) (hj : j < L) (hk : k < L) :
    L ∣ (j + (L - k)) ↔ j = k := by
  constructor
  · rintro ⟨c, hc⟩
    rcases c with _ | _ | c
    · omega
    · omega
    · exfalso
      have h3 : L * 2 ≤ L * (c + 2) := Nat.mul_le_mul_left L (by omega)
      rw [← hc] at h3
      omega
  · rintro rfl
    exact ⟨1, by omega⟩

/-- Conjugate variant: for `j, k < L` with `k ≠ 0`,
`L ∣ (L - j) + (L - k)` iff `j = L - k`. -/
theorem dvd_cross_conj (L j k : ℕ) (hj : j < L) (hk : k < L) (hk0 : k ≠ 0) :
    L ∣ ((L - j) + (L - k)) ↔ j = L - k := by
  constructor
  · rintro ⟨c, hc⟩
    rcases c with _ | _ | c
    · omega
    · omega
    · exfalso
      have h3 : L * 2 ≤ L * (c + 2) := Nat.mul_le_mul_left L (by omega)
      rw [← hc] at h3
      omega
  · rintro rfl
    exact ⟨1, by omega⟩

/-- Sum of inverse powers of `ω_L` over one period. -/
theorem invRootSum (L : ℕ) (hL : 0 < L) (k : Fin L) :
    ∑ n : Fin L, (expRoot L ^ (k.val * n.val))⁻¹
      = if k.val = 0 then (L : ℂ) else 0 := by
  have e1 : ∀ n : Fin L,
      (expRoot L ^ (k.val * n.val))⁻¹ = (expRoot L ^ (L - k.val)) ^ n.val := by
    intro n
    rw [expRoot_pow_inv L hL.ne' k.val n.val k.isLt.le, pow_mul]
  rw [Finset.sum_congr rfl (fun n _ => e1 n), rootSum L hL]
  by_cases hk : k.val = 0
  · rw [if_pos hk, if_pos]
    rw [hk, Nat.sub_zero]
  · rw [if_neg hk, if_neg]
    rintro ⟨c, hc⟩
    rcases c with _ | c
    · omega
    · have h3 : L * 1 ≤ L * (c + 1) := Nat.mul_le_mul_left L (by omega)
      rw [← hc] at h3
      omega

/-- Transform of a constant series: only the zero frequency survives. -/
theorem dftc_const (L : ℕ) (hL : 0 < L) (c : ℂ) (k : Fin L) :
    dftc L (fun _ => c) k = if k.val = 0 then (L : ℂ) * c else 0 := by
  unfold dftc
  rw [← Finset.mul_sum, invRootSum L hL]
  by_cases hk : k.val = 0
  · rw [if_pos hk, if_pos hk, mul_comm]
  · rw [if_neg hk, if_neg hk, mul_zero]

theorem conj_expRoot (L : ℕ) :
    (starRingEnd ℂ) (expRoot L) = (expRoot L)⁻¹ := by
  have h : expRoot L * (starRingEnd ℂ) (expRoot L) = 1 := by
    unfold expRoot
    rw [← Complex.exp_conj, ← Complex.exp_add]
    have hconj : (starRingEnd ℂ) (2 * (Real.pi : ℂ) * Complex.I / (L : ℂ))
        = -(2 * (Real.pi : ℂ) * Complex.I / (L : ℂ)) := by
      rw [map_div₀, map_mul, map_mul, Complex.conj_I, Complex.conj_ofReal,
        Complex.conj_natCast, map_ofNat]
      ring
    rw [hconj, add_neg_cancel, Complex.exp_zero]
  exact (inv_eq_of_mul_eq_one_right h).symm

theorem conj_expRoot_pow (L m : ℕ) :
    (starRingEnd ℂ) (expRoot L ^ m) = (expRoot L ^ m)⁻¹ := by
  rw [map_pow, conj_expRoot, inv_pow]

/-- Conjugating an inverse transform conjugates the coefficients and
flips the sign of the exponents. -/
theorem conj_idftc (L : ℕ) (y : Fin L → ℂ) (n : Fin L) :
    (starRingEnd ℂ) (idftc L y n)
      = (∑ j : Fin L,
          (starRingEnd ℂ) (y j) * (expRoot L ^ (j.val * n.val))⁻¹) / L := by
  unfold idftc
  rw [map_div₀, map_sum, Complex.conj_natCast]
  congr 1
  apply Finset.sum_congr rfl
  intro j _
  rw [map_mul, conj_expRoot_pow]

/-- Fourier inversion: the forward transform of `idftc y` recovers `y`. -/
theorem dftc_idftc (L : ℕ) (hL : 0 < L) (y : Fin L → ℂ) (k : Fin L) :
    dftc L (idftc L y) k = y k := by
  have hL' : L ≠ 0 := hL.ne'
  have hLc : (L : ℂ) ≠ 0 := Nat.cast_ne_zero.mpr hL'
  unfold dftc idftc
  have e1 : ∀ n : Fin L,
      (∑ j : Fin L, y j * expRoot L ^ (j.val * n.val)) / (L : ℂ)
          * (expRoot L ^ (k.val * n.val))⁻¹
        = (∑ j : Fin L,
            y j * (expRoot L ^ (j.val + (L - k.val))) ^ n.val) / L := by
    intro n
    rw [expRoot_pow_inv L hL' k.val n.val k.isLt.le, div_mul_eq_mul_div,
      Finset.sum_mul]
    congr 1
    apply Finset.sum_congr rfl
    intro j _
    rw [mul_assoc, ← pow_add, ← add_mul, pow_mul]
  rw [Finset.sum_congr rfl (fun n _ => e1 n), ← Finset.sum_div,
    Finset.sum_comm]
  have e2 : ∀ j : Fin L,
      ∑ n : Fin L, y j * (expRoot L ^ (j.val + (L - k.val))) ^ n.val
        = y j * if L ∣ (j.val + (L - k.val)) then (L : ℂ) else 0 := by
    intro j
    rw [← Finset.mul_sum, rootSum L hL]
  rw [Finset.sum_congr rfl (fun j _ => e2 j), Finset.sum_eq_single k]
  · rw [if_pos ((dvd_cross L k.val k.val k.isLt k.isLt).mpr rfl),
      mul_div_assoc, div_self hLc, mul_one]
  · intro j _ hj
    rw [if_neg, mul_zero]
    intro hdvd
    exact hj (Fin.ext ((dvd_cross L j.val k.val j.isLt k.isLt).mp hdvd))
  · intro hk
    exact absurd (Finset.mem_univ k) hk

/-- The forward transform of the *conjugated* inverse transform picks
out the conjugate coefficient at the mirrored index `L - k`. -/
theorem dftc_conj_idftc (L : ℕ) (hL : 0 < L) (y : Fin L → ℂ) (k : Fin L)
    (hk : k.val ≠ 0) :
    dftc L (fun n => (starRingEnd ℂ) (idftc L y n)) k
      = (starRingEnd ℂ)
          (y ⟨L - k.val, Nat.sub_lt hL (Nat.pos_of_ne_zero hk)⟩) := by
  have hL' : L ≠ 0 := hL.ne'
  have hLc : (L : ℂ) ≠ 0 := Nat.cast_ne_zero.mpr hL'
  unfold dftc
  have e1 : ∀ n : Fin L,
      (starRingEnd ℂ) (idftc L y n) * (expRoot L ^ (k.val * n.val))⁻¹
        = (∑ j : Fin L, (starRingEnd ℂ) (y j)
            * (expRoot L ^ ((L - j.val) + (L - k.val))) ^ n.val) / L := by
    intro n
    rw [conj_idftc, expRoot_pow_inv L hL' k.val n.val k.isLt.le,
      div_mul_eq_mul_div, Finset.sum_mul]
    congr 1
    apply Finset.sum_congr rfl
    intro j _
    rw [expRoot_pow_inv L hL' j.val n.val j.isLt.le, mul_assoc, ← pow_add,
      ← add_mul, pow_mul]
  rw [Finset.sum_congr rfl (fun n _ => e1 n), ← Finset.sum_div,
    Finset.sum_comm]
  have e2 : ∀ j : Fin L,
      ∑ n : Fin L, (starRingEnd ℂ) (y j)
          * (expRoot L ^ ((L - j.val) + (L - k.val))) ^ n.val
        = (starRingEnd ℂ) (y j)
            * if L ∣ ((L - j.val) + (L - k.val)) then (L : ℂ) else 0 := by
    intro j
    rw [← Finset.mul_sum, rootSum L hL]
  rw [Finset.sum_congr rfl (fun j _ => e2 j),
    Finset.sum_eq_single (⟨L - k.val, Nat.sub_lt hL (Nat.pos_of_ne_zero hk)⟩ : Fin L)]
  · rw [if_pos ((dvd_cross_conj L (L - k.val) k.val
        (Nat.sub_lt hL (Nat.pos_of_ne_zero hk)) k.isLt hk).mpr rfl),
      mul_div_assoc, div_self hLc, mul_one]
  · intro j _ hj
    rw [if_neg, mul_zero]
    intro hdvd
    exact hj (Fin.ext ((dvd_cross_conj L j.val k.val j.isLt k.isLt hk).mp hdvd))
  · intro hk'
    exact absurd (Finset.mem_univ _) hk'

/-- Master formula for the smoothed series' spectrum away from the zero
frequency: taking the real part symmetrises the retained spectrum, so
the output coefficient at `k ≠ 0` is the average of the retained
coefficient at `k` and the conjugated retained coefficient at `L - k`. -/
theorem dftc_smoothSeries (L : ℕ) (hL : 0 < L) (x : Fin L → ℝ) (k : Fin L)
    (hk : k.val ≠ 0) :
    dftc L (fun n => ((smoothSeries L x n : ℝ) : ℂ)) k
      = (smoothCoeffs L x k + (starRingEnd ℂ)
          (smoothCoeffs L x
            ⟨L - k.val, Nat.sub_lt hL (Nat.pos_of_ne_zero hk)⟩)) / 2 := by
  have hsplit : ∀ n : Fin L, ((smoothSeries L x n : ℝ) : ℂ)
      = (idftc L (smoothCoeffs L x) n
          + (starRingEnd ℂ) (idftc L (smoothCoeffs L x) n)) / 2
        + ((seriesMean L x : ℝ) : ℂ) := by
    intro n
    rw [smoothSeries, Complex.add_conj]
    push_cast
    ring
  have hlin : dftc L (fun n => ((smoothSeries L x n : ℝ) : ℂ)) k
      = (dftc L (idftc L (smoothCoeffs L x)) k
          + dftc L (fun n => (starRingEnd ℂ) (idftc L (smoothCoeffs L x) n)) k) / 2
        + dftc L (fun _ => ((seriesMean L x : ℝ) : ℂ)) k := by
    unfold dftc
    simp only [hsplit]
    have e : ∀ n : Fin L,
        ((idftc L (smoothCoeffs L x) n
            + (starRingEnd ℂ) (idftc L (smoothCoeffs L x) n)) / 2
          + ((seriesMean L x : ℝ) : ℂ)) * (expRoot L ^ (k.val * n.val))⁻¹
        = (idftc L (smoothCoeffs L x) n * (expRoot L ^ (k.val * n.val))⁻¹
            + (starRingEnd ℂ) (idftc L (smoothCoeffs L x) n)
              * (expRoot L ^ (k.val * n.val))⁻¹) / 2
          + ((seriesMean L x : ℝ) : ℂ) * (expRoot L ^ (k.val * n.val))⁻¹ := by
      intro n
      ring
    rw [Finset.sum_congr rfl (fun n _ => e n), Finset.sum_add_distrib,
      ← Finset.sum_div, Finset.sum_add_distrib]
  rw [hlin, dftc_idftc L hL, dftc_conj_idftc L hL _ k hk,
    dftc_const L hL _ k, if_neg hk, add_zero]

/-! ## Claim C2: the smoother preserves the temporal mean -/

/-- C2: for every input series, the temporal mean of the smoothed output
equals the mean of the original series (exactly, in ideal arithmetic):
the mean is subtracted before the transform, so the retained
zero-frequency coefficient is zero, and the mean is added back after
inversion. -/
theorem C2_smoother_preserves_mean (L : ℕ) (x : Fin L → ℝ) :
    seriesMean L (smoothSeries L x) = seriesMean L x := by
  rcases Nat.eq_zero_or_pos L with hL | hL
  · subst hL
    unfold seriesMean
    simp
  · have hL' : L ≠ 0 := hL.ne'
    have hLc : (L : ℂ) ≠ 0 := Nat.cast_ne_zero.mpr hL'
    have hLr : (L : ℝ) ≠ 0 := Nat.cast_ne_zero.mpr hL'
    -- the retained zero-frequency coefficient vanishes
    have hG0 : smoothCoeffs L x ⟨0, hL⟩ = 0 := by
      unfold smoothCoeffs mask12 dftc demeaned
      rw [if_pos (Or.inl (by norm_num))]
      have e : ∀ n : Fin L,
          ((x n - seriesMean L x : ℝ) : ℂ)
              * (expRoot L ^ ((⟨0, hL⟩ : Fin L).val * n.val))⁻¹
            = ((x n - seriesMean L x : ℝ) : ℂ) := by
        intro n
        simp
      rw [Finset.sum_congr rfl (fun n _ => e n)]
      have : ∑ n : Fin L, ((x n - seriesMean L x : ℝ) : ℂ)
          = (((∑ n : Fin L, x n) - L * seriesMean L x : ℝ) : ℂ) := by
        push_cast
        rw [Finset.sum_sub_distrib]
        congr 1
        rw [Finset.sum_const, Finset.card_univ, Fintype.card_fin, nsmul_eq_mul]
      rw [this]
      unfold seriesMean
      rw [mul_div_cancel₀ _ hLr]
      simp
    -- the temporal sum of the inverse transform is the zero coefficient
    have hsum : ∑ n : Fin L, idftc L (smoothCoeffs L x) n
        = smoothCoeffs L x ⟨0, hL⟩ := by
      unfold idftc
      rw [← Finset.sum_div, Finset.sum_comm]
      have e : ∀ j : Fin L,
          ∑ n : Fin L, smoothCoeffs L x j * expRoot L ^ (j.val * n.val)
            = smoothCoeffs L x j * if L ∣ j.val then (L : ℂ) else 0 := by
        intro j
        have e' : ∀ n : Fin L, smoothCoeffs L x j * expRoot L ^ (j.val * n.val)
            = smoothCoeffs L x j * (expRoot L ^ j.val) ^ n.val := by
          intro n
          rw [pow_mul]
        rw [Finset.sum_congr rfl (fun n _ => e' n), ← Finset.mul_sum,
          rootSum L hL]
      rw [Finset.sum_congr rfl (fun j _ => e j),
        Finset.sum_eq_single (⟨0, hL⟩ : Fin L)]
      · rw [if_pos (show L ∣ (⟨0, hL⟩ : Fin L).val from dvd_zero L),
          mul_div_assoc, div_self hLc, mul_one]
      · intro j _ hj
        rw [if_neg, mul_zero]
        intro hdvd
        exact hj (Fin.ext (Nat.eq_zero_of_dvd_of_lt hdvd j.isLt |>.symm ▸ rfl))
      · intro hmem
        exact absurd (Finset.mem_univ _) hmem
    -- assemble
    unfold seriesMean smoothSeries
    rw [Finset.sum_add_distrib]
    have hre : ∑ n : Fin L, (idftc L (smoothCoeffs L x) n).re = 0 := by
      rw [← Complex.re_sum, hsum, hG0, Complex.zero_re]
    rw [hre, zero_add, Finset.sum_const, Finset.card_univ, Fintype.card_fin,
      nsmul_eq_mul]
    unfold seriesMean
    field_simp

/-! ## Claim C3: spectral support of the smoothed output -/

/-- C3 (amended): the coefficients zeroed before inversion are exactly
the indices `12 .. L-13`, so the *complex* intermediate has spectrum
inside `[0,12) ∪ [L-12,L)`; after taking the real part, the output's
transform vanishes at every index strictly between 12 and `L-12` — but
not, in general, at index 12 itself (see the counterexample). -/
theorem C3_smoothed_spectrum_zeroed_band (L : ℕ) (x : Fin L → ℝ) (k : Fin L)
    (h1 : 12 < k.val) (h2 : k.val < L - 12) :
    smoothCoeffs L x k = 0 ∧
      dftc L (fun n => ((smoothSeries L x n : ℝ) : ℂ)) k = 0 := by
  have hL : 0 < L := lt_of_le_of_lt (Nat.zero_le _) k.isLt
  have hk0 : k.val ≠ 0 := by omega
  have hGk : smoothCoeffs L x k = 0 := by
    unfold smoothCoeffs mask12
    rw [if_neg]
    simp only [not_or, not_lt, not_le]
    omega
  refine ⟨hGk, ?_⟩
  rw [dftc_smoothSeries L hL x k hk0, hGk]
  have hGk' : smoothCoeffs L x
      ⟨L - k.val, Nat.sub_lt hL (Nat.pos_of_ne_zero hk0)⟩ = 0 := by
    unfold smoothCoeffs mask12
    rw [if_neg]
    simp only [not_or, not_lt, not_le]
    omega
  rw [hGk', map_zero, add_zero, zero_div]

/-- C3 witness: the in-band vanishing applied at `L = 26`, `k = 13` to
the zero series. -/
theorem C3_witness :
    smoothCoeffs 26 (fun _ => 0) ⟨13, by omega⟩ = 0 ∧
      dftc 26 (fun n => ((smoothSeries 26 (fun _ => 0) n : ℝ) : ℂ))
        ⟨13, by omega⟩ = 0 :=
  C3_smoothed_spectrum_zeroed_band 26 (fun _ => 0) ⟨13, by omega⟩
    (by norm_num) (by norm_num)

/-- The unit impulse at pentad 0 on a 25-step year. -/
noncomputable def deltaSeries : Fin 25 → ℝ := fun n => if n.val = 0 then 1 else 0

theorem seriesMean_delta : seriesMean 25 deltaSeries = 1 / 25 := by
  unfold seriesMean deltaSeries
  rw [Finset.sum_eq_single (⟨0, by omega⟩ : Fin 25)]
  · norm_num
  · intro j _ hj
    rw [if_neg]
    intro h
    exact hj (Fin.ext h)
  · intro hmem
    exact absurd (Finset.mem_univ _) hmem

/-- Transform of a de-meaned unit impulse: flat spectrum of height 1 at
every nonzero frequency. -/
theorem dftc_delta_demeaned (L : ℕ) (hL : 0 < L) (c : ℂ) (k : Fin L)
    (hk : k.val ≠ 0) :
    dftc L (fun n => (if n.val = 0 then (1 : ℂ) else 0) - c) k = 1 := by
  unfold dftc
  have e : ∀ n : Fin L,
      ((if n.val = 0 then (1 : ℂ) else 0) - c)
          * (expRoot L ^ (k.val * n.val))⁻¹
        = (if n.val = 0 then (1 : ℂ) else 0)
            * (expRoot L ^ (k.val * n.val))⁻¹
          - c * (expRoot L ^ (k.val * n.val))⁻¹ := by
    intro n
    ring
  rw [Finset.sum_congr rfl (fun n _ => e n), Finset.sum_sub_distrib,
    ← Finset.mul_sum, invRootSum L hL, if_neg hk, mul_zero, sub_zero]
  rw [Finset.sum_eq_single (⟨0, hL⟩ : Fin L)]
  · norm_num
  · intro j _ hj
    rw [if_neg, zero_mul]
    intro h
    exact hj (Fin.ext h)
  · intro hmem
    exact absurd (Finset.mem_univ _) hmem

/-- C3 counterexample. The claim asserts zero spectral energy at every
index outside `[0,12) ∪ [L-12,L)`. Take `L = 25` and the unit impulse:
index 12 is outside the retained band (second conjunct), yet the
transform of the smoothed output at index 12 equals `1/2`, not 0 — the
real-part step folds the retained coefficient at `L-12 = 13` back onto
the zeroed index 12. -/
theorem C3_counterexample_energy_at_12 :
    dftc 25 (fun n => ((smoothSeries 25 deltaSeries n : ℝ) : ℂ))
        ⟨12, by omega⟩ = 1 / 2 ∧
      ¬ ((12 : ℕ) < 12 ∨ 25 - 12 ≤ 12) := by
  constructor
  · rw [dftc_smoothSeries 25 (by omega) deltaSeries ⟨12, by omega⟩ (by norm_num)]
    have hdem : demeaned 25 deltaSeries
        = fun n => (if n.val = 0 then (1 : ℂ) else 0) - ((1 : ℝ) : ℂ) / 25 := by
      funext n
      unfold demeaned
      rw [seriesMean_delta]
      unfold deltaSeries
      push_cast [apply_ite]
      norm_num
    have hG12 : smoothCoeffs 25 deltaSeries ⟨12, by omega⟩ = 0 := by
      unfold smoothCoeffs mask12
      rw [if_neg (by norm_num)]
    have hG13 : smoothCoeffs 25 deltaSeries ⟨25 - 12, by omega⟩ = 1 := by
      unfold smoothCoeffs mask12
      rw [if_pos (by norm_num), hdem]
      have := dftc_delta_demeaned 25 (by omega) (((1 : ℝ) : ℂ) / 25)
        ⟨25 - 12, by omega⟩ (by norm_num)
      exact this
    rw [hG12, hG13, map_one, zero_add]
  · norm_num

end Monsoon
